import Mathlib

/-!
Verification of the `sudokuconv` package: a codec between solved 9x9 sudoku
boards and compact byte slices.

The definitions below are a shallow embedding of `sudokuconv.go`:
* a Go `[9][9]int` board becomes `Board := Fin 9 → Fin 9 → Int`;
* Go bytes / uint8 values become `Nat` reduced `% 256` where overflow matters;
* Go functions that can panic (index out of range) return `Option`, with
  `none` marking the panic; functions returning Go `error` return `Except`.
-/

set_option maxRecDepth 100000

namespace Sudokuconv

/-- A 9x9 sudoku board, mirroring Go's `[9][9]int`. -/
def Board := Fin 9 → Fin 9 → Int

instance {ε α : Type} [DecidableEq ε] [DecidableEq α] : DecidableEq (Except ε α) := fun x y =>
  match x, y with
  | .ok a, .ok b => decidable_of_iff (a = b) (by simp)
  | .error e, .error f => decidable_of_iff (e = f) (by simp)
  | .ok _, .error _ => isFalse (by simp)
  | .error _, .ok _ => isFalse (by simp)

/-- Build a board from a row-major list of rows (out-of-range cells default to 0);
used only to write down concrete test boards. -/
def boardOfRows (rows : List (List Int)) : Board :=
  fun r c => (rows.getD r.val []).getD c.val 0

/-- Write a single cell, mirroring a Go assignment `board[r][c] = v`. -/
def setCell (b : Board) (r c : Fin 9) (v : Int) : Board :=
  fun r' c' => if r' = r ∧ c' = c then v else b r' c'

/-- The all-zero board, Go's `[9][9]int{}`. -/
def emptyBoard : Board := fun _ _ => 0

/-- Row `r` as a list, the `row` value in Go's `for _, row := range board`. -/
def rowOf (b : Board) (r : Fin 9) : List Int :=
  [b r 0, b r 1, b r 2, b r 3, b r 4, b r 5, b r 6, b r 7, b r 8]

theorem board_eq_of_rows {b1 b2 : Board} (h : ∀ r, rowOf b1 r = rowOf b2 r) : b1 = b2 := by
  funext r c
  have hr := h r
  simp only [rowOf, List.cons.injEq, and_true] at hr
  fin_cases c <;> tauto

/-- Board equality, decided cell by cell (kernel-reducible). -/
instance : DecidableEq Board := fun b1 b2 =>
  decidable_of_iff (((List.finRange 9).all fun r => rowOf b1 r == rowOf b2 r) = true)
    (by
      simp only [List.all_eq_true, beq_iff_eq, List.mem_finRange, true_implies]
      exact ⟨board_eq_of_rows, fun h r => by rw [h]⟩)

/-- Kernel-reducible equality test for decoder results (the derived
`Option` instance transports along an equation of boards, which the kernel
cannot reduce for function-typed boards). -/
instance : DecidableEq (Option (Except String Board)) := fun x y =>
  match x, y with
  | none, none => isTrue rfl
  | some a, some b => decidable_of_iff (a = b) (by simp)
  | none, some _ => isFalse (by simp)
  | some _, none => isFalse (by simp)

/-- Mirrors `extractCol`. -/
def extractCol (b : Board) (c : Fin 9) : List Int :=
  [b 0 c, b 1 c, b 2 c, b 3 c, b 4 c, b 5 c, b 6 c, b 7 c, b 8 c]

/-- Cell `(x*3+i, y*3+j)` of the board, used to index 3x3 blocks. -/
def gridIdx (x : Fin 3) (i : Fin 3) : Fin 9 :=
  ⟨x.val * 3 + i.val, by omega⟩

/-- Mirrors `extractGrid`: block `(x, y)` in row-major order. -/
def extractGrid (b : Board) (x y : Fin 3) : List Int :=
  (List.finRange 3).flatMap fun i =>
    (List.finRange 3).map fun j => b (gridIdx x i) (gridIdx y j)

/-- Mirrors `validateGroup`: sort the 9 values (Go's `sort.Ints`; any
correct sort — here insertion sort, which the kernel can evaluate) and
require `[1,…,9]` (Go checks `sorted[idx] == idx+1` for the nine indices). -/
def validateGroup (group : List Int) : Bool :=
  group.insertionSort (· ≤ ·) == [1, 2, 3, 4, 5, 6, 7, 8, 9]

/-- Mirrors `validate`: all rows, then all columns, then all blocks. -/
def validate (b : Board) : Bool :=
  ((List.finRange 9).all fun r => validateGroup (rowOf b r)) &&
  ((List.finRange 9).all fun c => validateGroup (extractCol b c)) &&
  ((List.finRange 3).all fun x =>
    (List.finRange 3).all fun y => validateGroup (extractGrid b x y))

/-- Go's `1 << (uint(val)-1)` at type `uint8`: digits 1..8 give their bit,
every other `int` value (0, negatives, 9, …) shifts by at least 8 after the
unsigned wrap-around and yields 0. -/
def nineBit (v : Int) : Nat :=
  if 1 ≤ v ∧ v ≤ 8 then 2 ^ (v - 1).toNat else 0

/-- Go's `bits.TrailingZeros8`: position of the lowest set bit, 8 when zero. -/
def trailingZeros8 (n : Nat) : Nat :=
  if n.testBit 0 then 0
  else if n.testBit 1 then 1
  else if n.testBit 2 then 2
  else if n.testBit 3 then 3
  else if n.testBit 4 then 4
  else if n.testBit 5 then 5
  else if n.testBit 6 then 6
  else if n.testBit 7 then 7
  else 8

/-- Mirrors `lastMissing`: accumulate a `uint8` presence mask and return the
lowest digit of 1..8 absent from it, or 9 when all eight are present. -/
def lastMissing (group : List Int) : Int :=
  let taken := group.foldl (fun t v => (t + nineBit v) % 256) 0
  Int.ofNat (trailingZeros8 (taken ^^^ 255) + 1)

/-- Mirrors `solveSubgrids`: Go collects the four interior 3x3 grids
(row-major, from the board as given) before overwriting their corner cells,
in the order (0,0), (0,3), (3,0), (3,3). -/
def solveSubgrids (b : Board) : Board :=
  let g00 := extractGrid b 0 0
  let g01 := extractGrid b 0 1
  let g10 := extractGrid b 1 0
  let g11 := extractGrid b 1 1
  setCell (setCell (setCell (setCell b 0 0 (lastMissing g00))
    0 3 (lastMissing g01)) 3 0 (lastMissing g10)) 3 3 (lastMissing g11)

/-- Mirrors `solveRows`: Go ranges over a copy of the board, so each row is
read from the input board; rows 0..7 get their last column filled. -/
def solveRows (b : Board) : Board :=
  (List.finRange 9).foldl
    (fun acc r => if r.val < 8 then setCell acc r 8 (lastMissing (rowOf b r)) else acc) b

/-- Mirrors `solveCols`: each column is extracted from the current board
(writes so far touched only other columns), then its last cell is filled. -/
def solveCols (b : Board) : Board :=
  (List.finRange 9).foldl
    (fun acc c => setCell acc 8 c (lastMissing (extractCol acc c))) b

/-- Mirrors `solveNaively`. -/
def solveNaively (b : Board) : Board :=
  solveCols (solveRows (solveSubgrids b))

/-- Mirrors `firstInBlock`. Call sites only pass `r, c ≤ 8`, where Go's
`uint(1)<<uint(8-rowIdx)` agrees with truncated `Nat` subtraction. -/
def firstInBlock (r c : Nat) : Bool :=
  let block := 1 <<< (8 - r) + 1 <<< (8 - c)
  block == 512 || block == 288 || block == 64

/-- Mirrors `includeVal`. -/
def includeVal (r c : Nat) (val : Int) : Bool :=
  !firstInBlock r c && decide (r < 8) && decide (c < 8) && decide (val ≠ 9)

/-- Mirrors the `intermediate` struct (`uint8` fields become `Nat`). -/
structure Intermediate where
  RowWith9Last : Nat
  NineIndices : List Nat
  OtherSymbols : List Nat

/-- All 81 cells in row-major order, the iteration order of Go's nested
`for rowIdx, row := range board { for colIdx, val := range row { … } }`. -/
def cellsList : List (Fin 9 × Fin 9) :=
  (List.finRange 9).flatMap fun r => (List.finRange 9).map fun c => (r, c)

/-- The body of the `toIntermediate` loop for one cell;
`uint8(val-1)` becomes `((val-1) % 256).toNat`. -/
def imStep (b : Board) (im : Intermediate) (rc : Fin 9 × Fin 9) : Intermediate :=
  let v := b rc.1 rc.2
  if v = 9 ∧ rc.2.val = 8 then { im with RowWith9Last := rc.1.val }
  else if v = 9 then { im with NineIndices := im.NineIndices ++ [rc.2.val] }
  else if includeVal rc.1.val rc.2.val v then
    { im with OtherSymbols := im.OtherSymbols ++ [((v - 1) % 256).toNat] }
  else im

/-- Mirrors `toIntermediate`. -/
def toIntermediate (b : Board) : Intermediate :=
  cellsList.foldl (imStep b) ⟨0, [], []⟩

/-- Mirrors `byteSize`: `math.Ceil(bitSize/8)` is exact at these magnitudes. -/
def byteSize (bitSize : Nat) : Nat :=
  (bitSize + 7) / 8

/-- One `bytes[bitIdx/8] += bit << (7 - bitIdx%8)` step of the `ToBytes`
write loop (`uint8` addition); `none` is Go's index-out-of-range panic. -/
def writeBit (buf : List Nat) (bitIdx : Nat) (bit : Nat) : Option (List Nat) :=
  if h : bitIdx / 8 < buf.length then
    some (buf.set (bitIdx / 8) ((buf.get ⟨bitIdx / 8, h⟩ + bit <<< (7 - bitIdx % 8)) % 256))
  else none

/-- The three bit writes for one symbol `v`, masks `[4, 2, 1]` with shifts
`2 - idxInSymbol`, exactly as in the `ToBytes` inner loop. -/
def writeSym (buf : List Nat) (bitIdx : Nat) (v : Nat) : Option (List Nat) := do
  let b0 ← writeBit buf bitIdx ((v &&& 4) >>> 2)
  let b1 ← writeBit b0 (bitIdx + 1) ((v &&& 2) >>> 1)
  writeBit b1 (bitIdx + 2) ((v &&& 1) >>> 0)

/-- The outer write loop of `ToBytes` over `append(NineIndices, OtherSymbols…)`. -/
def writeSyms (buf : List Nat) (bitIdx : Nat) : List Nat → Option (List Nat × Nat)
  | [] => some (buf, bitIdx)
  | v :: rest => do
    let buf' ← writeSym buf bitIdx v
    writeSyms buf' (bitIdx + 3) rest

/-- Mirrors `ToBytes`. `none` is the runtime panic of writing past the fixed
24-byte array; `some (.error …)` is the returned validation error. -/
def ToBytes (b : Board) : Option (Except String (List Nat)) :=
  if !validate b then some (.error "board not solved correctly")
  else
    let im := toIntermediate b
    let buf0 := (List.replicate 24 0).set 0 ((im.RowWith9Last <<< 4) % 256)
    match writeSyms buf0 4 (im.NineIndices ++ im.OtherSymbols) with
    | none => none
    | some (buf, bitIdx) => some (.ok (buf.take (byteSize bitIdx)))

/-- Go's `bitMasks` array. -/
def bitMasks : List Nat := [128, 64, 32, 16, 8, 4, 2, 1]

/-- One iteration of the inner loop of `toSymbols`, at bit `idxInByte` of
byte `b`; the state is `(idxInSymbol, currentValue, symbols)`. -/
def symStep (b : Nat) (idxInByte : Nat) (st : Nat × Nat × List Nat) : Nat × Nat × List Nat :=
  let bit := b &&& bitMasks.getD idxInByte 0
  let currentValue := (st.2.1 + (bit >>> (7 - idxInByte)) <<< (2 - st.1)) % 256
  if (st.1 + 1) % 3 = 0 then (0, 0, st.2.2 ++ [currentValue])
  else ((st.1 + 1) % 3, currentValue, st.2.2)

/-- The inner loop of `toSymbols` over bits `initIdx..7` of one byte. -/
def symByte (st : Nat × Nat × List Nat) (b : Nat) (initIdx : Nat) : Nat × Nat × List Nat :=
  ((List.range 8).drop initIdx).foldl (fun st i => symStep b i st) st

/-- Mirrors `toSymbols`: the first byte is read from bit index 4, later
bytes from 0. -/
def toSymbols (bytes : List Nat) : List Nat :=
  match bytes with
  | [] => []
  | b0 :: rest => (rest.foldl (fun st b => symByte st b 0) (symByte (0, 0, []) b0 4)).2.2

/-- A Go assignment `board[r][c] = v` with dynamic `Nat` indices;
`none` is the index-out-of-range panic. -/
def bset (b : Board) (r c : Nat) (v : Int) : Option Board :=
  if hr : r < 9 then
    if hc : c < 9 then some (setCell b ⟨r, hr⟩ ⟨c, hc⟩ v) else none
  else none

/-- Mirrors `fill9s`. `board[im.RowWith9Last][8] = 9` panics when the 4-bit
row field exceeds 8; the loop then places the other eight 9s. -/
def fill9s (im : Intermediate) (board : Board) : Option Board := do
  let board ← bset board im.RowWith9Last 8 9
  im.NineIndices.enum.foldlM
    (fun bd (rowIdx, colIdx) =>
      if rowIdx ≥ im.RowWith9Last then bset bd (rowIdx + 1) colIdx 9
      else bset bd rowIdx colIdx 9)
    board

/-- Mirrors `fillOtherSymbols`. Go ranges over a copy of `board`, and every
cell is written at most once, after being read, so the filter reads the
snapshot `board`; `int(im.OtherSymbols[valIdx]) + 1` is written back. -/
def fillOtherSymbols (im : Intermediate) (board : Board) : Except String Board :=
  (cellsList.foldlM
    (fun (st : Board × Nat) rc =>
      if includeVal rc.1.val rc.2.val (board rc.1 rc.2) then
        if st.2 < im.OtherSymbols.length then
          Except.ok (setCell st.1 rc.1 rc.2 (Int.ofNat (im.OtherSymbols.getD st.2 0) + 1), st.2 + 1)
        else Except.error "not enough values"
      else Except.ok st)
    (board, 0)).map Prod.fst

/-- Mirrors `(*intermediate).toBoard`: fill the 9s into an empty board, then
the other symbols. -/
def toBoard (im : Intermediate) : Option (Except String Board) :=
  match fill9s im emptyBoard with
  | none => none
  | some bd => some (fillOtherSymbols im bd)

/-- Mirrors `FromBytes`. `none` is a runtime panic; errors from `toBoard`
are wrapped like Go's `errors.Wrap(err, "incomplete bytes")`. The guard on
`symbols.length` mirrors the `symbols[:8]` slice bound (it never fires for
9 or more bytes). Byte entries are reduced `% 256` where read as a byte. -/
def FromBytes (bytes : List Nat) : Option (Except String Board) :=
  if bytes.length < 9 then some (.error "not enough bytes")
  else
    let symbols := toSymbols bytes
    if symbols.length < 8 then none
    else
      let im : Intermediate :=
        ⟨(bytes.getD 0 0 % 256) >>> 4, symbols.take 8, symbols.drop 8⟩
      match toBoard im with
      | none => none
      | some (.error e) => some (.error ("incomplete bytes: " ++ e))
      | some (.ok board) =>
        let solved := solveNaively board
        if !validate solved then some (.error "bytes lead to incorrect board")
        else some (.ok solved)

/-! ### The validator accepts exactly the solved boards -/

def oneToNine : List Int := [1, 2, 3, 4, 5, 6, 7, 8, 9]

theorem validateGroup_iff (g : List Int) :
    validateGroup g = true ↔ g.Perm oneToNine := by
  unfold validateGroup
  rw [beq_iff_eq]
  constructor
  · intro h
    have hp : (g.insertionSort (· ≤ ·)).Perm g := List.perm_insertionSort _ g
    rw [h] at hp
    exact hp.symm
  · intro h
    exact List.eq_of_perm_of_sorted ((List.perm_insertionSort _ g).trans h)
      (List.sorted_insertionSort _ g) (by decide)

theorem validate_iff (b : Board) :
    validate b = true ↔
      (∀ r, (rowOf b r).Perm oneToNine) ∧
      (∀ c, (extractCol b c).Perm oneToNine) ∧
      (∀ x y, (extractGrid b x y).Perm oneToNine) := by
  unfold validate
  simp only [Bool.and_eq_true, List.all_eq_true, List.mem_finRange, true_implies,
    validateGroup_iff]
  tauto

theorem takenOf_eq (g : List Int) :
    g.foldl (fun t v => (t + nineBit v) % 256) 0 = (g.map nineBit).sum % 256 := by
  suffices h : ∀ (a : Nat), g.foldl (fun t v => (t + nineBit v) % 256) (a % 256)
      = (a + (g.map nineBit).sum) % 256 by
    simpa using h 0
  induction g with
  | nil => intro a; simp
  | cons v g ih =>
    intro a
    have h1 : (a % 256 + nineBit v) % 256 = (a + nineBit v) % 256 := by
      omega
    simp only [List.foldl_cons, h1, ih (a + nineBit v), List.map_cons, List.sum_cons]
    ring_nf

theorem lastMissing_congr {g h : List Int} (hp : g.Perm h) :
    lastMissing g = lastMissing h := by
  unfold lastMissing
  rw [takenOf_eq, takenOf_eq, (hp.map nineBit).sum_eq]

theorem lastMissing_complete {g : List Int} (h : g.Perm oneToNine) :
    lastMissing g = 9 := by
  rw [lastMissing_congr h]; decide

theorem lastMissing_hole {g : List Int} {d : Int} (h1 : 1 ≤ d) (h9 : d ≤ 9)
    (hp : g.Perm (0 :: oneToNine.erase d)) : lastMissing g = d := by
  rw [lastMissing_congr hp]
  interval_cases d <;> decide

theorem lastMissing_zero_head {d : Int} {tail : List Int}
    (h : (d :: tail).Perm oneToNine) :
    lastMissing (0 :: tail) = d := by
  have hd : d ∈ oneToNine := h.mem_iff.mp (List.mem_cons_self d tail)
  have h19 : 1 ≤ d ∧ d ≤ 9 := by
    fin_cases hd <;> norm_num
  have ht : tail.Perm (oneToNine.erase d) :=
    (List.cons_perm_iff_perm_erase.mp h).2
  exact lastMissing_hole h19.1 h19.2 (ht.cons 0)

theorem lastMissing_zero_last {d : Int} {init : List Int}
    (h : (init ++ [d]).Perm oneToNine) :
    lastMissing (init ++ [0]) = d := by
  have h1 : (d :: init).Perm oneToNine :=
    (List.perm_append_singleton d init).symm.trans h
  have h2 : (init ++ [0]).Perm (0 :: init) := List.perm_append_singleton 0 init
  rw [lastMissing_congr h2]
  exact lastMissing_zero_head h1

theorem lastMissing_last_complete {d : Int} {init : List Int}
    (h : (init ++ [d]).Perm oneToNine) :
    lastMissing (init ++ [d]) = 9 := lastMissing_complete h

/-! ### Pointwise behaviour of the reconstruction passes -/

theorem setCell_apply (b : Board) (r c : Fin 9) (v : Int) (r' c' : Fin 9) :
    setCell b r c v r' c' = if r' = r ∧ c' = c then v else b r' c' := rfl

theorem setCell_ne (b : Board) (r c : Fin 9) (v : Int) {r' c' : Fin 9}
    (h : ¬(r' = r ∧ c' = c)) : setCell b r c v r' c' = b r' c' := by
  simp [setCell, h]

theorem solveSubgrids_at00 (b : Board) :
    solveSubgrids b 0 0 = lastMissing (extractGrid b 0 0) := rfl

theorem solveSubgrids_at03 (b : Board) :
    solveSubgrids b 0 3 = lastMissing (extractGrid b 0 1) := rfl

theorem solveSubgrids_at30 (b : Board) :
    solveSubgrids b 3 0 = lastMissing (extractGrid b 1 0) := rfl

theorem solveSubgrids_at33 (b : Board) :
    solveSubgrids b 3 3 = lastMissing (extractGrid b 1 1) := rfl

theorem solveSubgrids_other (b : Board) {r c : Fin 9}
    (h1 : ¬(r = 0 ∧ c = 0)) (h2 : ¬(r = 0 ∧ c = 3))
    (h3 : ¬(r = 3 ∧ c = 0)) (h4 : ¬(r = 3 ∧ c = 3)) :
    solveSubgrids b r c = b r c := by
  unfold solveSubgrids
  rw [setCell_ne _ _ _ _ h4, setCell_ne _ _ _ _ h3, setCell_ne _ _ _ _ h2,
    setCell_ne _ _ _ _ h1]

theorem solveRowsAux (b : Board) (l : List (Fin 9)) (acc : Board) (r c : Fin 9) :
    (l.foldl (fun acc r =>
        if r.val < 8 then setCell acc r 8 (lastMissing (rowOf b r)) else acc) acc) r c
      = if r ∈ l ∧ r.val < 8 ∧ c = 8 then lastMissing (rowOf b r) else acc r c := by
  induction l generalizing acc with
  | nil => simp
  | cons r0 l ih =>
    simp only [List.foldl_cons]
    rw [ih]
    by_cases hmem : r ∈ l ∧ r.val < 8 ∧ c = 8
    · rw [if_pos hmem, if_pos ⟨List.mem_cons_of_mem r0 hmem.1, hmem.2⟩]
    · rw [if_neg hmem]
      by_cases h0 : r0.val < 8
      · rw [if_pos h0, setCell_apply]
        by_cases hrc : r = r0 ∧ c = 8
        · rcases hrc with ⟨hr, hc⟩
          subst hr; subst hc
          rw [if_pos ⟨rfl, rfl⟩, if_pos ⟨List.mem_cons_self r l, h0, rfl⟩]
        · rw [if_neg hrc, if_neg]
          rintro ⟨hm, hlt, hc⟩
          rcases List.mem_cons.mp hm with h | h
          · exact hrc ⟨h, hc⟩
          · exact hmem ⟨h, hlt, hc⟩
      · rw [if_neg h0, if_neg]
        rintro ⟨hm, hlt, hc⟩
        rcases List.mem_cons.mp hm with h | h
        · subst h; exact h0 hlt
        · exact hmem ⟨h, hlt, hc⟩

theorem solveRows_apply (b : Board) (r c : Fin 9) :
    solveRows b r c = if r.val < 8 ∧ c = 8 then lastMissing (rowOf b r) else b r c := by
  unfold solveRows
  rw [solveRowsAux]
  simp [List.mem_finRange]

theorem solveColsAux (b : Board) (l : List (Fin 9)) (acc : Board)
    (hnd : l.Nodup)
    (hrows : ∀ (r c : Fin 9), r ≠ 8 → acc r c = b r c)
    (hpend : ∀ c ∈ l, acc 8 c = b 8 c) (r c : Fin 9) :
    (l.foldl (fun acc c => setCell acc 8 c (lastMissing (extractCol acc c))) acc) r c
      = if r = 8 ∧ c ∈ l then lastMissing (extractCol b c) else acc r c := by
  induction l generalizing acc with
  | nil => simp
  | cons c0 l ih =>
    simp only [List.foldl_cons]
    have hcol : extractCol acc c0 = extractCol b c0 := by
      unfold extractCol
      rw [hrows 0 c0 (by decide), hrows 1 c0 (by decide), hrows 2 c0 (by decide),
        hrows 3 c0 (by decide), hrows 4 c0 (by decide), hrows 5 c0 (by decide),
        hrows 6 c0 (by decide), hrows 7 c0 (by decide),
        hpend c0 (List.mem_cons_self c0 l)]
    have hc0l : c0 ∉ l := (List.nodup_cons.mp hnd).1
    have hrows' : ∀ (r c : Fin 9), r ≠ 8 →
        setCell acc 8 c0 (lastMissing (extractCol acc c0)) r c = b r c := by
      intro r c hr
      rw [setCell_ne]
      · exact hrows r c hr
      · rintro ⟨h8, _⟩; exact hr h8
    have hpend' : ∀ c ∈ l,
        setCell acc 8 c0 (lastMissing (extractCol acc c0)) 8 c = b 8 c := by
      intro c hc
      rw [setCell_ne]
      · exact hpend c (List.mem_cons_of_mem c0 hc)
      · rintro ⟨_, hcc⟩; exact hc0l (hcc ▸ hc)
    rw [ih _ (List.nodup_cons.mp hnd).2 hrows' hpend']
    by_cases h : r = 8 ∧ c ∈ l
    · rw [if_pos h, if_pos ⟨h.1, List.mem_cons_of_mem c0 h.2⟩]
    · rw [if_neg h, setCell_apply]
      by_cases h2 : r = 8 ∧ c = c0
      · rcases h2 with ⟨hr, hc⟩
        subst hr; subst hc
        rw [if_pos ⟨rfl, rfl⟩, if_pos ⟨rfl, List.mem_cons_self c l⟩, hcol]
      · rw [if_neg h2, if_neg]
        rintro ⟨hr, hm⟩
        rcases List.mem_cons.mp hm with hc | hc
        · exact h2 ⟨hr, hc⟩
        · exact h ⟨hr, hc⟩

theorem solveCols_apply (b : Board) (r c : Fin 9) :
    solveCols b r c = if r = 8 then lastMissing (extractCol b c) else b r c := by
  unfold solveCols
  rw [solveColsAux b _ b (List.nodup_finRange 9) (fun _ _ _ => rfl) (fun _ _ => rfl)]
  simp [List.mem_finRange]

/-! ### The partially decoded board -/

/-- The partial board the decoder has right before `solveNaively`: all nine
9s of `b`, plus every encoded symbol cell of `b` (first 8 rows and columns,
not a 9, not an anchor), every other cell empty. -/
def partialOf (b : Board) : Board :=
  fun r c => if b r c = 9 ∨ includeVal r.val c.val (b r c) then b r c else 0

/-- The four cells Go's `firstInBlock` singles out. -/
theorem firstInBlock_iff (r c : Fin 9) :
    firstInBlock r.val c.val = true ↔
      ((r = 0 ∧ c = 0) ∨ (r = 0 ∧ c = 3) ∨ (r = 3 ∧ c = 0) ∨ (r = 3 ∧ c = 3)) := by
  revert r c; decide

theorem partialOf_mid (b : Board) (r c : Fin 9) (hr : r.val < 8) (hc : c.val < 8)
    (hfb : firstInBlock r.val c.val = false) : partialOf b r c = b r c := by
  unfold partialOf includeVal
  by_cases h : b r c = 9 <;> simp [h, hfb, hr, hc]

theorem partialOf_special (b : Board) {r c : Fin 9}
    (h : firstInBlock r.val c.val = true ∨ r.val = 8 ∨ c.val = 8) :
    partialOf b r c = if b r c = 9 then 9 else 0 := by
  unfold partialOf includeVal
  by_cases h9 : b r c = 9
  · simp [h9]
  · rcases h with h | h | h <;> simp [h9, h]

theorem subgrid_anchor00 (b : Board) (hg : (extractGrid b 0 0).Perm oneToNine) :
    lastMissing (extractGrid (partialOf b) 0 0) = b 0 0 := by
  have ht : extractGrid (partialOf b) 0 0 =
      partialOf b 0 0 :: [b 0 1, b 0 2, b 1 0, b 1 1, b 1 2, b 2 0, b 2 1, b 2 2] := by
    show [partialOf b 0 0, partialOf b 0 1, partialOf b 0 2, partialOf b 1 0,
      partialOf b 1 1, partialOf b 1 2, partialOf b 2 0, partialOf b 2 1,
      partialOf b 2 2] = _
    simp +decide only [partialOf_mid]
  have hb : extractGrid b 0 0 =
      b 0 0 :: [b 0 1, b 0 2, b 1 0, b 1 1, b 1 2, b 2 0, b 2 1, b 2 2] := rfl
  rw [hb] at hg
  by_cases h9 : b 0 0 = 9
  · rw [ht, partialOf_special b (by decide), if_pos h9, ← h9]
    rw [h9] at hg ⊢
    exact lastMissing_complete hg
  · rw [ht, partialOf_special b (by decide), if_neg h9]
    exact lastMissing_zero_head hg

theorem subgrid_anchor03 (b : Board) (hg : (extractGrid b 0 1).Perm oneToNine) :
    lastMissing (extractGrid (partialOf b) 0 1) = b 0 3 := by
  have ht : extractGrid (partialOf b) 0 1 =
      partialOf b 0 3 :: [b 0 4, b 0 5, b 1 3, b 1 4, b 1 5, b 2 3, b 2 4, b 2 5] := by
    show [partialOf b 0 3, partialOf b 0 4, partialOf b 0 5, partialOf b 1 3,
      partialOf b 1 4, partialOf b 1 5, partialOf b 2 3, partialOf b 2 4,
      partialOf b 2 5] = _
    simp +decide only [partialOf_mid]
  have hb : extractGrid b 0 1 =
      b 0 3 :: [b 0 4, b 0 5, b 1 3, b 1 4, b 1 5, b 2 3, b 2 4, b 2 5] := rfl
  rw [hb] at hg
  by_cases h9 : b 0 3 = 9
  · rw [ht, partialOf_special b (by decide), if_pos h9, ← h9]
    rw [h9] at hg ⊢
    exact lastMissing_complete hg
  · rw [ht, partialOf_special b (by decide), if_neg h9]
    exact lastMissing_zero_head hg

theorem subgrid_anchor30 (b : Board) (hg : (extractGrid b 1 0).Perm oneToNine) :
    lastMissing (extractGrid (partialOf b) 1 0) = b 3 0 := by
  have ht : extractGrid (partialOf b) 1 0 =
      partialOf b 3 0 :: [b 3 1, b 3 2, b 4 0, b 4 1, b 4 2, b 5 0, b 5 1, b 5 2] := by
    show [partialOf b 3 0, partialOf b 3 1, partialOf b 3 2, partialOf b 4 0,
      partialOf b 4 1, partialOf b 4 2, partialOf b 5 0, partialOf b 5 1,
      partialOf b 5 2] = _
    simp +decide only [partialOf_mid]
  have hb : extractGrid b 1 0 =
      b 3 0 :: [b 3 1, b 3 2, b 4 0, b 4 1, b 4 2, b 5 0, b 5 1, b 5 2] := rfl
  rw [hb] at hg
  by_cases h9 : b 3 0 = 9
  · rw [ht, partialOf_special b (by decide), if_pos h9, ← h9]
    rw [h9] at hg ⊢
    exact lastMissing_complete hg
  · rw [ht, partialOf_special b (by decide), if_neg h9]
    exact lastMissing_zero_head hg

theorem subgrid_anchor33 (b : Board) (hg : (extractGrid b 1 1).Perm oneToNine) :
    lastMissing (extractGrid (partialOf b) 1 1) = b 3 3 := by
  have ht : extractGrid (partialOf b) 1 1 =
      partialOf b 3 3 :: [b 3 4, b 3 5, b 4 3, b 4 4, b 4 5, b 5 3, b 5 4, b 5 5] := by
    show [partialOf b 3 3, partialOf b 3 4, partialOf b 3 5, partialOf b 4 3,
      partialOf b 4 4, partialOf b 4 5, partialOf b 5 3, partialOf b 5 4,
      partialOf b 5 5] = _
    simp +decide only [partialOf_mid]
  have hb : extractGrid b 1 1 =
      b 3 3 :: [b 3 4, b 3 5, b 4 3, b 4 4, b 4 5, b 5 3, b 5 4, b 5 5] := rfl
  rw [hb] at hg
  by_cases h9 : b 3 3 = 9
  · rw [ht, partialOf_special b (by decide), if_pos h9, ← h9]
    rw [h9] at hg ⊢
    exact lastMissing_complete hg
  · rw [ht, partialOf_special b (by decide), if_neg h9]
    exact lastMissing_zero_head hg

/-- After the subgrid pass on the partial board, every cell of the top-left
8x8 region carries its original value. -/
theorem subgrids_partial_mid (b : Board)
    (hgrids : ∀ x y, (extractGrid b x y).Perm oneToNine)
    (r c : Fin 9) (hr : r.val < 8) (hc : c.val < 8) :
    solveSubgrids (partialOf b) r c = b r c := by
  by_cases h1 : r = 0 ∧ c = 0
  · rcases h1 with ⟨h1r, h1c⟩; subst h1r; subst h1c
    rw [solveSubgrids_at00]; exact subgrid_anchor00 b (hgrids 0 0)
  · by_cases h2 : r = 0 ∧ c = 3
    · rcases h2 with ⟨h2r, h2c⟩; subst h2r; subst h2c
      rw [solveSubgrids_at03]; exact subgrid_anchor03 b (hgrids 0 1)
    · by_cases h3 : r = 3 ∧ c = 0
      · rcases h3 with ⟨h3r, h3c⟩; subst h3r; subst h3c
        rw [solveSubgrids_at30]; exact subgrid_anchor30 b (hgrids 1 0)
      · by_cases h4 : r = 3 ∧ c = 3
        · rcases h4 with ⟨h4r, h4c⟩; subst h4r; subst h4c
          rw [solveSubgrids_at33]; exact subgrid_anchor33 b (hgrids 1 1)
        · rw [solveSubgrids_other (partialOf b) h1 h2 h3 h4]
          refine partialOf_mid b r c hr hc ?_
          rw [← Bool.not_eq_true]
          intro hfb
          rcases (firstInBlock_iff r c).mp hfb with h | h | h | h
          · exact h1 h
          · exact h2 h
          · exact h3 h
          · exact h4 h

/-- The subgrid pass leaves the last column untouched. -/
theorem subgrids_partial_col8 (b : Board) (r : Fin 9) :
    solveSubgrids (partialOf b) r 8 = if b r 8 = 9 then 9 else 0 := by
  rw [solveSubgrids_other (partialOf b) (by simp) (by simp) (by simp) (by simp),
    partialOf_special b (Or.inr (Or.inr rfl))]

/-- The subgrid pass leaves the last row untouched. -/
theorem subgrids_partial_row8 (b : Board) (c : Fin 9) :
    solveSubgrids (partialOf b) 8 c = if b 8 c = 9 then 9 else 0 := by
  rw [solveSubgrids_other (partialOf b) (by simp) (by simp) (by simp) (by simp),
    partialOf_special b (Or.inr (Or.inl rfl))]

theorem fin9_lt8 {r : Fin 9} (h : r ≠ 8) : r.val < 8 := by
  rcases Nat.lt_or_ge r.val 8 with h8 | h8
  · exact h8
  · exact absurd (Fin.ext (by omega)) h

/-- After the subgrid and row passes, the first eight rows are fully
restored. -/
theorem rowsPass_restored (b : Board)
    (hrows : ∀ r, (rowOf b r).Perm oneToNine)
    (hgrids : ∀ x y, (extractGrid b x y).Perm oneToNine)
    (r c : Fin 9) (hr : r.val < 8) :
    solveRows (solveSubgrids (partialOf b)) r c = b r c := by
  rw [solveRows_apply]
  by_cases hc : c = 8
  · subst hc
    rw [if_pos ⟨hr, rfl⟩]
    have hq : rowOf (solveSubgrids (partialOf b)) r =
        [b r 0, b r 1, b r 2, b r 3, b r 4, b r 5, b r 6, b r 7]
          ++ [if b r 8 = 9 then 9 else 0] := by
      simp only [rowOf]
      rw [subgrids_partial_mid b hgrids r 0 hr (by decide),
        subgrids_partial_mid b hgrids r 1 hr (by decide),
        subgrids_partial_mid b hgrids r 2 hr (by decide),
        subgrids_partial_mid b hgrids r 3 hr (by decide),
        subgrids_partial_mid b hgrids r 4 hr (by decide),
        subgrids_partial_mid b hgrids r 5 hr (by decide),
        subgrids_partial_mid b hgrids r 6 hr (by decide),
        subgrids_partial_mid b hgrids r 7 hr (by decide),
        subgrids_partial_col8 b r]
      rfl
    have hrow : rowOf b r =
        [b r 0, b r 1, b r 2, b r 3, b r 4, b r 5, b r 6, b r 7] ++ [b r 8] := rfl
    have hp := hrows r
    rw [hrow] at hp
    rw [hq]
    by_cases h9 : b r 8 = 9
    · rw [if_pos h9, h9]
      rw [h9] at hp
      exact lastMissing_complete hp
    · rw [if_neg h9]
      exact lastMissing_zero_last hp
  · rw [if_neg (fun h => hc h.2)]
    exact subgrids_partial_mid b hgrids r c hr (fin9_lt8 hc)

/-- The row pass leaves the last row as the subgrid pass left it. -/
theorem rowsPass_row8 (b : Board) (c : Fin 9) :
    solveRows (solveSubgrids (partialOf b)) 8 c = if b 8 c = 9 then 9 else 0 := by
  rw [solveRows_apply, if_neg (fun h => absurd h.1 (by decide))]
  exact subgrids_partial_row8 b c

/-- Reconstruction: running the decoder's three passes — interior subgrids,
then rows, then columns — on the partial board of a solved board `b`
restores `b` exactly. -/
theorem solveNaively_restores (b : Board) (hv : validate b = true) :
    solveNaively (partialOf b) = b := by
  obtain ⟨hrows, hcols, hgrids⟩ := (validate_iff b).mp hv
  funext r c
  show solveCols (solveRows (solveSubgrids (partialOf b))) r c = b r c
  rw [solveCols_apply]
  by_cases hr8 : r = 8
  · subst hr8
    rw [if_pos rfl]
    have hcolq : extractCol (solveRows (solveSubgrids (partialOf b))) c =
        [b 0 c, b 1 c, b 2 c, b 3 c, b 4 c, b 5 c, b 6 c, b 7 c]
          ++ [if b 8 c = 9 then 9 else 0] := by
      simp only [extractCol]
      rw [rowsPass_restored b hrows hgrids 0 c (by decide),
        rowsPass_restored b hrows hgrids 1 c (by decide),
        rowsPass_restored b hrows hgrids 2 c (by decide),
        rowsPass_restored b hrows hgrids 3 c (by decide),
        rowsPass_restored b hrows hgrids 4 c (by decide),
        rowsPass_restored b hrows hgrids 5 c (by decide),
        rowsPass_restored b hrows hgrids 6 c (by decide),
        rowsPass_restored b hrows hgrids 7 c (by decide),
        rowsPass_row8 b c]
      rfl
    have hcol : extractCol b c =
        [b 0 c, b 1 c, b 2 c, b 3 c, b 4 c, b 5 c, b 6 c, b 7 c] ++ [b 8 c] := rfl
    have hp := hcols c
    rw [hcol] at hp
    rw [hcolq]
    by_cases h9 : b 8 c = 9
    · rw [if_pos h9, h9]
      rw [h9] at hp
      exact lastMissing_complete hp
    · rw [if_neg h9]
      exact lastMissing_zero_last hp
  · rw [if_neg hr8]
    exact rowsPass_restored b hrows hgrids r c (fin9_lt8 hr8)

/-! ### Counting the encoded fields of a solved board -/

/-- Indicator: 1 when a cell value is the digit 9. -/
def n9 (v : Int) : Nat := if v = 9 then 1 else 0

/-- How many of the four interior anchor cells hold a 9. -/
def anchorNines (b : Board) : Nat :=
  n9 (b 0 0) + n9 (b 0 3) + n9 (b 3 0) + n9 (b 3 3)

theorem n9_le_one (v : Int) : n9 v ≤ 1 := by
  unfold n9; split <;> omega

theorem count9_cons (x : Int) (l : List Int) :
    List.count 9 (x :: l) = n9 x + List.count 9 l := by
  rw [List.count_cons]
  unfold n9
  by_cases h : x = 9 <;> simp [h]
  omega

theorem includeVal_nine (r c : Nat) : includeVal r c 9 = false := by
  simp [includeVal]

theorem imStep_OS (b : Board) (l : List (Fin 9 × Fin 9)) (im : Intermediate) :
    (l.foldl (imStep b) im).OtherSymbols
      = im.OtherSymbols
        ++ (l.filter fun rc => includeVal rc.1.val rc.2.val (b rc.1 rc.2)).map
            (fun rc => ((b rc.1 rc.2 - 1) % 256).toNat) := by
  induction l generalizing im with
  | nil => simp
  | cons rc l ih =>
    simp only [List.foldl_cons, List.filter_cons, ih]
    unfold imStep
    by_cases h1 : b rc.1 rc.2 = 9
    · simp only [h1, includeVal_nine, Bool.false_eq_true, if_false]
      by_cases h8 : rc.2.val = 8 <;> simp [h8]
    · rw [if_neg (fun hh => h1 hh.1), if_neg h1]
      cases hiv : includeVal rc.1.val rc.2.val (b rc.1 rc.2) <;>
        simp [List.append_assoc]

theorem imStep_NI (b : Board) (l : List (Fin 9 × Fin 9)) (im : Intermediate) :
    (l.foldl (imStep b) im).NineIndices
      = im.NineIndices
        ++ (l.filter fun rc => decide (b rc.1 rc.2 = 9) && !decide (rc.2.val = 8)).map
            (fun rc => rc.2.val) := by
  induction l generalizing im with
  | nil => simp
  | cons rc l ih =>
    simp only [List.foldl_cons, List.filter_cons, ih]
    unfold imStep
    by_cases h1 : b rc.1 rc.2 = 9
    · by_cases h8 : rc.2.val = 8
      · simp [h1, h8]
      · simp [h1, h8, List.append_assoc]
    · rw [if_neg (fun hh => h1 hh.1), if_neg h1]
      have : (decide (b rc.1 rc.2 = 9) && !decide (rc.2.val = 8)) = false := by
        simp [h1]
      rw [this]
      simp only [Bool.false_eq_true, if_false]
      split <;> rfl

theorem imStep_R (b : Board) (l : List (Fin 9 × Fin 9)) (im : Intermediate) :
    (l.foldl (imStep b) im).RowWith9Last
      = l.foldl
          (fun acc rc => if b rc.1 rc.2 = 9 ∧ rc.2.val = 8 then rc.1.val else acc)
          im.RowWith9Last := by
  induction l generalizing im with
  | nil => rfl
  | cons rc l ih =>
    simp only [List.foldl_cons, ih]
    unfold imStep
    by_cases h1 : b rc.1 rc.2 = 9 ∧ rc.2.val = 8
    · rw [if_pos h1, if_pos h1]
    · rw [if_neg h1, if_neg h1]
      congr 1
      split
      · rfl
      · split <;> rfl

/-- The cells of row `r` in column order. -/
def rowCells (r : Fin 9) : List (Fin 9 × Fin 9) :=
  (List.finRange 9).map fun c => (r, c)

theorem cellsList_decomp :
    cellsList = rowCells 0 ++ rowCells 1 ++ rowCells 2 ++ rowCells 3 ++ rowCells 4
      ++ rowCells 5 ++ rowCells 6 ++ rowCells 7 ++ rowCells 8 := by decide

theorem rowCells_eq (r : Fin 9) :
    rowCells r = [(r, 0), (r, 1), (r, 2), (r, 3), (r, 4), (r, 5), (r, 6), (r, 7), (r, 8)] := rfl

theorem incl_ite_mid (r c : Nat) (hr : r < 8) (hc : c < 8)
    (hfb : firstInBlock r c = false) (v : Int) :
    (if includeVal r c v then (1 : Nat) else 0) = 1 - n9 v := by
  unfold includeVal n9
  by_cases h : v = 9 <;> simp [h, hr, hc, hfb]

theorem incl_ite_anchor (r c : Nat) (hfb : firstInBlock r c = true) (v : Int) :
    (if includeVal r c v then (1 : Nat) else 0) = 0 := by
  simp [includeVal, hfb]

theorem incl_ite_r8 (r c : Nat) (hr : r = 8) (v : Int) :
    (if includeVal r c v then (1 : Nat) else 0) = 0 := by
  simp [includeVal, hr]

theorem incl_ite_c8 (r c : Nat) (hc : c = 8) (v : Int) :
    (if includeVal r c v then (1 : Nat) else 0) = 0 := by
  simp [includeVal, hc]

theorem count9_expand (b : Board) (r : Fin 9) (h : (rowOf b r).Perm oneToNine) :
    n9 (b r 0) + n9 (b r 1) + n9 (b r 2) + n9 (b r 3) + n9 (b r 4) + n9 (b r 5)
      + n9 (b r 6) + n9 (b r 7) + n9 (b r 8) = 1 := by
  have hc : List.count 9 (rowOf b r) = 1 := by
    rw [h.count_eq]; decide
  simp only [rowOf, count9_cons, List.count_nil] at hc
  omega

theorem count9col_expand (b : Board) (c : Fin 9) (h : (extractCol b c).Perm oneToNine) :
    n9 (b 0 c) + n9 (b 1 c) + n9 (b 2 c) + n9 (b 3 c) + n9 (b 4 c) + n9 (b 5 c)
      + n9 (b 6 c) + n9 (b 7 c) + n9 (b 8 c) = 1 := by
  have hc : List.count 9 (extractCol b c) = 1 := by
    rw [h.count_eq]; decide
  simp only [extractCol, count9_cons, List.count_nil] at hc
  omega


theorem rowOS_0 (b : Board) (h : (rowOf b 0).Perm oneToNine) :
    (rowCells 0).countP (fun rc => includeVal rc.1.val rc.2.val (b rc.1 rc.2))
      = 5 + n9 (b 0 0) + n9 (b 0 3) + n9 (b 0 8) := by
  have hc := count9_expand b 0 h
  simp only [rowCells_eq, List.countP_cons, List.countP_nil]
  simp +decide only [incl_ite_mid, incl_ite_anchor, incl_ite_c8]
  omega

theorem rowOS_3 (b : Board) (h : (rowOf b 3).Perm oneToNine) :
    (rowCells 3).countP (fun rc => includeVal rc.1.val rc.2.val (b rc.1 rc.2))
      = 5 + n9 (b 3 0) + n9 (b 3 3) + n9 (b 3 8) := by
  have hc := count9_expand b 3 h
  simp only [rowCells_eq, List.countP_cons, List.countP_nil]
  simp +decide only [incl_ite_mid, incl_ite_anchor, incl_ite_c8]
  omega

theorem rowOS_8 (b : Board) :
    (rowCells 8).countP (fun rc => includeVal rc.1.val rc.2.val (b rc.1 rc.2)) = 0 := by
  simp only [rowCells_eq, List.countP_cons, List.countP_nil]
  simp +decide only [incl_ite_r8]

theorem rowOS_mid (b : Board) (r : Fin 9) (hr1 : r ≠ 0) (hr3 : r ≠ 3) (hr8 : r ≠ 8)
    (h : (rowOf b r).Perm oneToNine) :
    (rowCells r).countP (fun rc => includeVal rc.1.val rc.2.val (b rc.1 rc.2))
      = 7 + n9 (b r 8) := by
  have hc := count9_expand b r h
  have hfb : ∀ c : Fin 9, c.val < 8 → firstInBlock r.val c.val = false := by
    intro c hcv
    rw [← Bool.not_eq_true]
    intro hfb
    rcases (firstInBlock_iff r c).mp hfb with h | h | h | h
    · exact hr1 h.1
    · exact hr1 h.1
    · exact hr3 h.1
    · exact hr3 h.1
  have hrv : r.val < 8 := fin9_lt8 hr8
  simp only [rowCells_eq, List.countP_cons, List.countP_nil]
  rw [incl_ite_mid r.val (0 : Fin 9).val hrv (by decide) (hfb 0 (by decide)),
    incl_ite_mid r.val (1 : Fin 9).val hrv (by decide) (hfb 1 (by decide)),
    incl_ite_mid r.val (2 : Fin 9).val hrv (by decide) (hfb 2 (by decide)),
    incl_ite_mid r.val (3 : Fin 9).val hrv (by decide) (hfb 3 (by decide)),
    incl_ite_mid r.val (4 : Fin 9).val hrv (by decide) (hfb 4 (by decide)),
    incl_ite_mid r.val (5 : Fin 9).val hrv (by decide) (hfb 5 (by decide)),
    incl_ite_mid r.val (6 : Fin 9).val hrv (by decide) (hfb 6 (by decide)),
    incl_ite_mid r.val (7 : Fin 9).val hrv (by decide) (hfb 7 (by decide)),
    incl_ite_c8 r.val (8 : Fin 9).val (by decide)]
  omega

/-- For a solved board, the number of encoded symbols is 52, plus one for
each anchor cell that holds a 9, plus one more when the bottom-right cell is
not a 9. -/
theorem OS_length (b : Board) (hv : validate b = true) :
    (toIntermediate b).OtherSymbols.length
      = 52 + anchorNines b + (1 - n9 (b 8 8)) := by
  obtain ⟨hrows, hcols, _⟩ := (validate_iff b).mp hv
  have hc8 := count9col_expand b 8 (hcols 8)
  unfold toIntermediate
  rw [imStep_OS]
  simp only [List.nil_append, List.length_map, ← List.countP_eq_length_filter]
  rw [cellsList_decomp]
  simp only [List.countP_append]
  rw [rowOS_0 b (hrows 0), rowOS_mid b 1 (by decide) (by decide) (by decide) (hrows 1),
    rowOS_mid b 2 (by decide) (by decide) (by decide) (hrows 2), rowOS_3 b (hrows 3),
    rowOS_mid b 4 (by decide) (by decide) (by decide) (hrows 4),
    rowOS_mid b 5 (by decide) (by decide) (by decide) (hrows 5),
    rowOS_mid b 6 (by decide) (by decide) (by decide) (hrows 6),
    rowOS_mid b 7 (by decide) (by decide) (by decide) (hrows 7), rowOS_8 b]
  unfold anchorNines
  omega

theorem nine_ite_ne8 (c : Nat) (hc : ¬(c = 8)) (v : Int) :
    (if decide (v = 9) && !decide (c = 8) then (1 : Nat) else 0) = n9 v := by
  unfold n9
  by_cases h : v = 9 <;> simp [h, hc]

theorem nine_ite_8 (c : Nat) (hc : c = 8) (v : Int) :
    (if decide (v = 9) && !decide (c = 8) then (1 : Nat) else 0) = 0 := by
  simp [hc]

theorem rowNI_count (b : Board) (r : Fin 9) (h : (rowOf b r).Perm oneToNine) :
    (rowCells r).countP (fun rc => decide (b rc.1 rc.2 = 9) && !decide (rc.2.val = 8))
      = 1 - n9 (b r 8) := by
  have hc := count9_expand b r h
  simp only [rowCells_eq, List.countP_cons, List.countP_nil]
  rw [nine_ite_ne8 (0 : Fin 9).val (by decide) (b r 0),
    nine_ite_ne8 (1 : Fin 9).val (by decide) (b r 1),
    nine_ite_ne8 (2 : Fin 9).val (by decide) (b r 2),
    nine_ite_ne8 (3 : Fin 9).val (by decide) (b r 3),
    nine_ite_ne8 (4 : Fin 9).val (by decide) (b r 4),
    nine_ite_ne8 (5 : Fin 9).val (by decide) (b r 5),
    nine_ite_ne8 (6 : Fin 9).val (by decide) (b r 6),
    nine_ite_ne8 (7 : Fin 9).val (by decide) (b r 7),
    nine_ite_8 (8 : Fin 9).val (by decide) (b r 8)]
  omega

/-- For a solved board, exactly eight 9s sit outside the last column. -/
theorem NI_length (b : Board) (hv : validate b = true) :
    (toIntermediate b).NineIndices.length = 8 := by
  obtain ⟨hrows, hcols, _⟩ := (validate_iff b).mp hv
  have hc8 := count9col_expand b 8 (hcols 8)
  have hb8 : n9 (b 8 8) ≤ 1 := n9_le_one _
  unfold toIntermediate
  rw [imStep_NI]
  simp only [List.nil_append, List.length_map, ← List.countP_eq_length_filter]
  rw [cellsList_decomp]
  simp only [List.countP_append]
  rw [rowNI_count b 0 (hrows 0), rowNI_count b 1 (hrows 1), rowNI_count b 2 (hrows 2),
    rowNI_count b 3 (hrows 3), rowNI_count b 4 (hrows 4), rowNI_count b 5 (hrows 5),
    rowNI_count b 6 (hrows 6), rowNI_count b 7 (hrows 7), rowNI_count b 8 (hrows 8)]
  have h0 := count9_expand b 0 (hrows 0)
  have h1 := count9_expand b 1 (hrows 1)
  have h2 := count9_expand b 2 (hrows 2)
  have h3 := count9_expand b 3 (hrows 3)
  have h4 := count9_expand b 4 (hrows 4)
  have h5 := count9_expand b 5 (hrows 5)
  have h6 := count9_expand b 6 (hrows 6)
  have h7 := count9_expand b 7 (hrows 7)
  have h8 := count9_expand b 8 (hrows 8)
  omega

/-! ### Writing the bit stream -/

theorem writeBit_ok (buf : List Nat) (k b : Nat) (h : k / 8 < buf.length) :
    ∃ buf', writeBit buf k b = some buf' ∧ buf'.length = buf.length := by
  unfold writeBit
  rw [dif_pos h]
  exact ⟨_, rfl, by simp⟩

theorem writeSym_ok (buf : List Nat) (k v : Nat) (h : (k + 2) / 8 < buf.length) :
    ∃ buf', writeSym buf k v = some buf' ∧ buf'.length = buf.length := by
  have h0 : k / 8 < buf.length := lt_of_le_of_lt (Nat.div_le_div_right (by omega)) h
  have h1 : (k + 1) / 8 < buf.length := lt_of_le_of_lt (Nat.div_le_div_right (by omega)) h
  obtain ⟨b0, hb0, hl0⟩ := writeBit_ok buf k ((v &&& 4) >>> 2) h0
  obtain ⟨b1, hb1, hl1⟩ := writeBit_ok b0 (k + 1) ((v &&& 2) >>> 1) (hl0 ▸ h1)
  obtain ⟨b2, hb2, hl2⟩ := writeBit_ok b1 (k + 2) ((v &&& 1) >>> 0) (hl1 ▸ hl0 ▸ h)
  refine ⟨b2, ?_, by omega⟩
  unfold writeSym
  rw [hb0]
  show Option.bind (writeBit b0 (k+1) _) _ = _
  rw [hb1]
  exact hb2

theorem writeSyms_ok (syms : List Nat) : ∀ (buf : List Nat) (k : Nat),
    k + 3 * syms.length ≤ 8 * buf.length →
    ∃ buf', writeSyms buf k syms = some (buf', k + 3 * syms.length)
      ∧ buf'.length = buf.length := by
  induction syms with
  | nil => intro buf k _; exact ⟨buf, rfl, rfl⟩
  | cons v rest ih =>
    intro buf k hsz
    simp only [List.length_cons] at hsz
    have hk2 : (k + 2) / 8 < buf.length := by omega
    obtain ⟨b0, hb0, hl0⟩ := writeSym_ok buf k v hk2
    obtain ⟨b1, hb1, hl1⟩ := ih b0 (k + 3) (by omega)
    refine ⟨b1, ?_, by omega⟩
    unfold writeSyms
    rw [hb0]
    show writeSyms b0 (k + 3) rest = _
    rw [hb1]
    congr 2
    simp
    omega

/-- Amended length statement: 23 bytes exactly when no anchor holds a 9 and
the bottom-right cell is the 9 of its row and column; every anchor-9
coincidence adds one 3-bit field, as does a bottom-right cell other than 9.
The hypothesis excludes the overflow case (three extra fields). -/
theorem encoded_length (b : Board) (hv : validate b = true)
    (hsz : anchorNines b + (1 - n9 (b 8 8)) ≤ 2) :
    ∃ bs, ToBytes b = some (Except.ok bs)
      ∧ (toIntermediate b).OtherSymbols.length = 52 + anchorNines b + (1 - n9 (b 8 8))
      ∧ bs.length = (if anchorNines b = 0 ∧ b 8 8 = 9 then 23 else 24) := by
  have hOS := OS_length b hv
  have hNI := NI_length b hv
  unfold ToBytes
  rw [hv]
  simp only [Bool.not_true, Bool.false_eq_true, if_false]
  have hlen0 : ((List.replicate 24 0).set 0
      (((toIntermediate b).RowWith9Last <<< 4) % 256)).length = 24 := by
    simp
  obtain ⟨buf', hw, hbl⟩ := writeSyms_ok
    ((toIntermediate b).NineIndices ++ (toIntermediate b).OtherSymbols)
    ((List.replicate 24 0).set 0 (((toIntermediate b).RowWith9Last <<< 4) % 256)) 4
    (by
      simp only [List.length_append, hNI, hOS, hlen0]
      omega)
  rw [hw]
  refine ⟨_, rfl, hOS, ?_⟩
  simp only [List.length_take, hbl, hlen0, List.length_append, hNI, hOS, byteSize]
  by_cases hb8 : b 8 8 = 9
  · have h1 : n9 (b 8 8) = 1 := by simp [n9, hb8]
    by_cases ha : anchorNines b = 0
    · rw [if_pos ⟨ha, hb8⟩]
      omega
    · rw [if_neg (fun hh => ha hh.1)]
      omega
  · have h1 : n9 (b 8 8) = 0 := by simp [n9, hb8]
    rw [if_neg (fun hh => hb8 hh.2)]
    omega

/-! ### The decoder pipeline, stage by stage -/

/-- The intermediate structure `FromBytes` builds from a byte sequence. -/
def imOfBytes (bytes : List Nat) : Intermediate :=
  ⟨(bytes.getD 0 0 % 256) >>> 4, (toSymbols bytes).take 8, (toSymbols bytes).drop 8⟩

theorem FromBytes_as_stages (bytes : List Nat) :
    FromBytes bytes =
      if bytes.length < 9 then some (.error "not enough bytes")
      else if (toSymbols bytes).length < 8 then none
      else
        match toBoard (imOfBytes bytes) with
        | none => none
        | some (.error e) => some (.error ("incomplete bytes: " ++ e))
        | some (.ok board) =>
          if !validate (solveNaively board) then
            some (.error "bytes lead to incorrect board")
          else some (.ok (solveNaively board)) := rfl

theorem FromBytes_computes_ok (bytes : List Nat)
    (hlen : ¬bytes.length < 9) (hs : ¬(toSymbols bytes).length < 8)
    (board : Board) (htb : toBoard (imOfBytes bytes) = some (.ok board))
    (hval : validate (solveNaively board) = true) :
    FromBytes bytes = some (.ok (solveNaively board)) := by
  rw [FromBytes_as_stages, if_neg hlen, if_neg hs, htb]
  simp [hval]

theorem FromBytes_validates (bytes : List Nat) (b : Board)
    (h : FromBytes bytes = some (Except.ok b)) : validate b = true := by
  rw [FromBytes_as_stages] at h
  by_cases hlen : bytes.length < 9
  · rw [if_pos hlen] at h
    simp at h
  · rw [if_neg hlen] at h
    by_cases hs : (toSymbols bytes).length < 8
    · rw [if_pos hs] at h
      cases h
    · rw [if_neg hs] at h
      cases htb : toBoard (imOfBytes bytes) with
      | none => rw [htb] at h; cases h
      | some r =>
        rw [htb] at h
        cases r with
        | error e => simp at h
        | ok board =>
          by_cases hval : validate (solveNaively board) = true
          · simp only [hval, Bool.not_true, Bool.false_eq_true, if_false,
              Option.some.injEq, Except.ok.injEq] at h
            rw [← h]
            exact hval
          · rw [Bool.not_eq_true] at hval
            simp [hval] at h

theorem FromBytes_corrupt (bytes : List Nat)
    (hlen : ¬bytes.length < 9) (hs : ¬(toSymbols bytes).length < 8)
    (board : Board) (htb : toBoard (imOfBytes bytes) = some (.ok board))
    (hval : validate (solveNaively board) = false) :
    FromBytes bytes = some (.error "bytes lead to incorrect board") := by
  rw [FromBytes_as_stages, if_neg hlen, if_neg hs, htb]
  simp [hval]

/-! ### Concrete boards: the Go test vectors and the overflow boards -/

/-- The `working` board of the package's tests. -/
def workingBoard : Board := boardOfRows [
  [9, 8, 7, 6, 5, 4, 3, 2, 1],
  [6, 5, 4, 3, 2, 1, 9, 8, 7],
  [3, 2, 1, 9, 8, 7, 6, 5, 4],
  [8, 9, 6, 7, 4, 5, 2, 1, 3],
  [7, 4, 5, 2, 1, 3, 8, 9, 6],
  [2, 1, 3, 8, 9, 6, 7, 4, 5],
  [5, 7, 9, 4, 6, 8, 1, 3, 2],
  [4, 6, 8, 1, 3, 2, 5, 7, 9],
  [1, 3, 2, 5, 7, 9, 4, 6, 8]]

/-- The `workingBytes` vector of the package's tests. -/
def workingBytesList : List Nat :=
  [113, 153, 241, 95, 163, 70, 198, 136, 232, 143, 172, 174, 17, 156, 33, 114,
   23, 185, 204, 239, 9, 222, 17, 152]

/-- The test board `working9firstOf2Grids` with its last two rows swapped:
still solved, but 9s sit on both free anchors (0,0) and (3,3) while the
nine of the last column is in row 7, so the encoding needs 193 bits. -/
def overflowBoardA : Board := boardOfRows [
  [9, 8, 7, 6, 5, 4, 3, 2, 1],
  [6, 5, 4, 3, 2, 1, 9, 8, 7],
  [3, 2, 1, 8, 9, 7, 6, 5, 4],
  [2, 1, 3, 9, 8, 6, 7, 4, 5],
  [8, 9, 6, 7, 4, 5, 2, 1, 3],
  [7, 4, 5, 2, 1, 3, 8, 9, 6],
  [5, 7, 9, 4, 6, 8, 1, 3, 2],
  [4, 6, 8, 1, 3, 2, 5, 7, 9],
  [1, 3, 2, 5, 7, 9, 4, 6, 8]]

/-- A solved board with 9s on anchors (0,3) and (3,0) and the last-column
nine in row 1: a second 193-bit board. -/
def overflowBoardB : Board := boardOfRows [
  [5, 4, 6, 9, 8, 7, 1, 2, 3],
  [2, 1, 3, 6, 5, 4, 7, 8, 9],
  [8, 7, 9, 3, 2, 1, 4, 5, 6],
  [9, 8, 1, 4, 3, 2, 5, 6, 7],
  [6, 5, 7, 1, 9, 8, 2, 3, 4],
  [3, 2, 4, 7, 6, 5, 8, 9, 1],
  [4, 3, 5, 8, 7, 6, 9, 1, 2],
  [7, 6, 8, 2, 1, 9, 3, 4, 5],
  [1, 9, 2, 5, 4, 3, 6, 7, 8]]

/-- The transpose of `overflowBoardA`: a third 193-bit board. -/
def overflowBoardC : Board := boardOfRows [
  [9, 6, 3, 2, 8, 7, 5, 4, 1],
  [8, 5, 2, 1, 9, 4, 7, 6, 3],
  [7, 4, 1, 3, 6, 5, 9, 8, 2],
  [6, 3, 8, 9, 7, 2, 4, 1, 5],
  [5, 2, 9, 8, 4, 1, 6, 3, 7],
  [4, 1, 7, 6, 5, 3, 8, 2, 9],
  [3, 9, 6, 7, 2, 8, 1, 5, 4],
  [2, 8, 5, 4, 1, 9, 3, 7, 6],
  [1, 7, 4, 5, 3, 6, 2, 9, 8]]

/-- A solved board with no 9 on any anchor and the last-column nine in
row 0: its encoding is 187 bits, hence 24 bytes. -/
def basePatternBoard : Board := boardOfRows [
  [1, 2, 3, 4, 5, 6, 7, 8, 9],
  [4, 5, 6, 7, 8, 9, 1, 2, 3],
  [7, 8, 9, 1, 2, 3, 4, 5, 6],
  [2, 3, 4, 5, 6, 7, 8, 9, 1],
  [5, 6, 7, 8, 9, 1, 2, 3, 4],
  [8, 9, 1, 2, 3, 4, 5, 6, 7],
  [3, 4, 5, 6, 7, 8, 9, 1, 2],
  [6, 7, 8, 9, 1, 2, 3, 4, 5],
  [9, 1, 2, 3, 4, 5, 6, 7, 8]]

/-- The `workingIdeal9s` board of the package's tests (23-byte encoding). -/
def idealBoard : Board := boardOfRows [
  [6, 5, 4, 3, 2, 1, 9, 8, 7],
  [9, 8, 7, 6, 5, 4, 3, 2, 1],
  [3, 2, 1, 8, 9, 7, 6, 5, 4],
  [8, 9, 6, 7, 4, 5, 2, 1, 3],
  [2, 1, 3, 9, 8, 6, 7, 4, 5],
  [7, 4, 5, 2, 1, 3, 8, 9, 6],
  [5, 7, 9, 4, 6, 8, 1, 3, 2],
  [1, 3, 2, 5, 7, 9, 4, 6, 8],
  [4, 6, 8, 1, 3, 2, 5, 7, 9]]


/-! ### Groups with a single unknown entry -/

theorem mem_oneToNine (e : Int) (h1 : 1 ≤ e) (h9 : e ≤ 9) : e ∈ oneToNine := by
  interval_cases e <;> decide

theorem oneToNine_bounds (e : Int) (h : e ∈ oneToNine) : 1 ≤ e ∧ e ≤ 9 := by
  fin_cases h <;> norm_num

/-- A group with one 0 and eight distinct digits of 1..9 is, up to order,
`0` together with `1..9` minus a single digit `d`. -/
theorem hole_perm (g : List Int) (hlen : g.length = 9) (h0 : List.count 0 g = 1)
    (hmem : ∀ v ∈ g, v ≠ 0 → 1 ≤ v ∧ v ≤ 9)
    (hnd : (g.filter (fun v => decide (v ≠ 0))).Nodup) :
    ∃ d, 1 ≤ d ∧ d ≤ 9 ∧ g.Perm (0 :: oneToNine.erase d) := by
  have hflen : (g.filter (fun v => decide (v ≠ 0))).length = 8 := by
    have hpart := @List.length_eq_length_filter_add Int g (fun v => decide (v = (0:Int)))
    have hfeq : g.filter (fun x => !(fun v => decide (v = (0:Int))) x)
        = g.filter (fun v => decide (v ≠ 0)) :=
      List.filter_congr (fun x _ => by simp)
    have hlc : (g.filter (fun v => decide (v = (0:Int)))).length = List.count 0 g := by
      rw [List.count_eq_countP, List.countP_eq_length_filter]
      exact congrArg List.length (List.filter_congr (fun x _ => by by_cases h : x = 0 <;> simp [h]))
    rw [hfeq, hlc, h0, hlen] at hpart
    omega
  have hsubset : ∀ a ∈ g.filter (fun v => decide (v ≠ 0)), a ∈ oneToNine := by
    intro a ha
    obtain ⟨hag, hane⟩ := List.mem_filter.mp ha
    have hane' : a ≠ 0 := by simpa using hane
    obtain ⟨ha1, ha9⟩ := hmem a hag hane'
    exact mem_oneToNine a ha1 ha9
  have hnine : ¬(∀ a ∈ oneToNine, a ∈ g.filter (fun v => decide (v ≠ 0))) := by
    intro hall
    have hsp : oneToNine.Subperm (g.filter (fun v => decide (v ≠ 0))) :=
      List.subperm_of_subset (by decide) hall
    have := hsp.length_le
    rw [hflen] at this
    exact absurd this (by decide)
  push_neg at hnine
  obtain ⟨d, hdmem, hdnot⟩ := hnine
  obtain ⟨hd1, hd9⟩ := oneToNine_bounds d hdmem
  refine ⟨d, hd1, hd9, ?_⟩
  have hfsub : g.filter (fun v => decide (v ≠ 0)) ⊆ oneToNine.erase d := by
    intro a ha
    refine ((List.Nodup.mem_erase_iff (by decide)).mpr ⟨?_, hsubset a ha⟩)
    intro had
    exact hdnot (had ▸ ha)
  have hfsp := List.subperm_of_subset hnd hfsub
  have hlene : (oneToNine.erase d).length = 8 := by
    rw [List.length_erase_of_mem hdmem]
    decide
  have hfp : (g.filter (fun v => decide (v ≠ 0))).Perm (oneToNine.erase d) :=
    hfsp.perm_of_length_le (by omega)
  have h0mem : (0 : Int) ∈ g := List.count_pos_iff.mp (by omega)
  have hg0 : g.Perm (0 :: g.erase 0) := List.perm_cons_erase h0mem
  have herasef : (g.erase 0).Perm (g.filter (fun v => decide (v ≠ 0))) := by
    rw [List.perm_iff_count]
    intro a
    by_cases ha : a = 0
    · subst ha
      rw [List.count_erase_self]
      rw [h0]
      symm
      rw [List.count_eq_zero]
      intro hmem0
      have := (List.mem_filter.mp hmem0).2
      simp at this
    · rw [List.count_erase_of_ne ha, List.count_filter (by simpa using ha)]
  exact hg0.trans ((herasef.trans hfp).cons 0)

theorem lastMissing_unique (g : List Int) (hlen : g.length = 9)
    (h0 : List.count 0 g = 1) (hmem : ∀ v ∈ g, v ≠ 0 → 1 ≤ v ∧ v ≤ 9)
    (hnd : (g.filter (fun v => decide (v ≠ 0))).Nodup) :
    ∃ d : Int, 1 ≤ d ∧ d ≤ 9 ∧ d ∉ g ∧ (∀ e : Int, 1 ≤ e → e ≤ 9 → e ∉ g → e = d)
      ∧ lastMissing g = d := by
  obtain ⟨d, hd1, hd9, hperm⟩ := hole_perm g hlen h0 hmem hnd
  have hlm := lastMissing_hole hd1 hd9 hperm
  have hdnot : d ∉ g := by
    intro hc
    have hdm := hperm.mem_iff.mp hc
    rcases List.mem_cons.mp hdm with h | h
    · omega
    · exact absurd ((List.Nodup.mem_erase_iff (by decide)).mp h).1 (by simp)
  refine ⟨d, hd1, hd9, hdnot, ?_, hlm⟩
  intro e he1 he9 henot
  by_contra hne
  have hee : e ∈ oneToNine.erase d :=
    (List.Nodup.mem_erase_iff (by decide)).mpr ⟨hne, mem_oneToNine e he1 he9⟩
  exact henot (hperm.mem_iff.mpr (List.mem_cons_of_mem 0 hee))

/-! ### Claim theorems -/

/-- C1 (code bug): round-trip fails on the code as written. On the solved
board `overflowBoardA` the encoder runs off the end of its fixed 24-byte
array (a Go index-out-of-range panic, `none` here), so
`FromBytes (ToBytes b)` cannot even be formed, let alone return `b`. -/
theorem C1_roundtrip_broken_by_encoder_panic :
    validate overflowBoardA = true ∧ ToBytes overflowBoardA = none := by
  constructor
  · decide
  · decide

/-- C2 (code bug): `ToBytes` does not succeed on every board that passes the
validator: on the solved board `overflowBoardB` it neither returns bytes nor
an error — it panics (the 193-bit stream overflows the 24-byte array). -/
theorem C2_encoder_panics_on_solved_board :
    validate overflowBoardB = true
      ∧ (∀ r : Except String (List Nat), ToBytes overflowBoardB ≠ some r) := by
  constructor
  · decide
  · intro r h
    rw [show ToBytes overflowBoardB = none from by decide] at h
    cases h

/-- C3 (code bug): `FromBytes` is not panic-free. Nine bytes whose first
byte has high nibble 9 pass the length check, and `fill9s` then indexes
row 9 of the 9x9 board — an out-of-bounds access (`none` here). -/
theorem C3_decoder_panics_on_high_nibble :
    ([144, 0, 0, 0, 0, 0, 0, 0, 0] : List Nat).length = 9
      ∧ (([144, 0, 0, 0, 0, 0, 0, 0, 0] : List Nat).getD 0 0 % 256) >>> 4 = 9
      ∧ FromBytes [144, 0, 0, 0, 0, 0, 0, 0, 0] = none := by
  refine ⟨by decide, by decide, by decide⟩

/-- C4 (code bug): `ToBytes` does not return 23 or 24 bytes for every
correctly solved board: on `overflowBoardC` it returns no byte sequence at
all (its encoding would need 25 bytes and the write panics). -/
theorem C4_encoder_returns_no_bytes_on_overflow_board :
    validate overflowBoardC = true
      ∧ ¬∃ bs, ToBytes overflowBoardC = some (Except.ok bs) := by
  constructor
  · decide
  · rintro ⟨bs, h⟩
    rw [show ToBytes overflowBoardC = none from by decide] at h
    cases h

/-- C5 (counterexample): a solved board on which no anchor cell holds a 9
yet the encoding is 24 bytes, not 23 — anchors are always omitted, so an
anchor-9 coincidence adds (not removes) a 3-bit field. -/
theorem C5_counterexample_no_anchor_nine_still_24_bytes :
    validate basePatternBoard = true ∧ anchorNines basePatternBoard = 0
      ∧ (ToBytes basePatternBoard).map (Except.map List.length)
          = some (Except.ok 24) := by
  refine ⟨by decide, by decide, by decide⟩

/-- C5 (amended): for a solved board the symbol stream holds 52 3-bit
fields, plus one for each anchor cell holding a 9 and one more when the
bottom-right cell is not a 9; the total length is 23 bytes exactly when no
anchor holds a 9 and the bottom-right cell is a 9, and 24 bytes otherwise —
provided at most two extra fields arise (at three, the encoder overflows
its 24-byte buffer instead of producing output). -/
theorem C5_amended_length (b : Board) (hv : validate b = true)
    (hsz : anchorNines b + (1 - n9 (b 8 8)) ≤ 2) :
    ∃ bs, ToBytes b = some (Except.ok bs)
      ∧ (toIntermediate b).OtherSymbols.length
          = 52 + anchorNines b + (1 - n9 (b 8 8))
      ∧ bs.length = (if anchorNines b = 0 ∧ b 8 8 = 9 then 23 else 24) :=
  encoded_length b hv hsz

/-- Witness for C5: the test board `workingIdeal9s` has no anchor 9 and a
9 in the bottom-right cell, and encodes to 23 bytes. -/
theorem C5_amended_length_witness :
    ∃ bs, ToBytes idealBoard = some (Except.ok bs)
      ∧ (toIntermediate idealBoard).OtherSymbols.length
          = 52 + anchorNines idealBoard + (1 - n9 (idealBoard 8 8))
      ∧ bs.length
          = (if anchorNines idealBoard = 0 ∧ idealBoard 8 8 = 9 then 23 else 24) :=
  C5_amended_length idealBoard (by decide) (by decide)

/-- C6: `validate` accepts a board exactly when every row, every column and
every 3x3 block is a permutation of `[1,…,9]`; any duplicate, out-of-range
or missing value breaks the permutation property and is rejected. -/
theorem C6_validate_iff_permutations (b : Board) :
    validate b = true ↔
      (∀ r, (rowOf b r).Perm oneToNine) ∧
      (∀ c, (extractCol b c).Perm oneToNine) ∧
      (∀ x y, (extractGrid b x y).Perm oneToNine) :=
  validate_iff b

/-- C7: for every solved board `b`, running the reconstructor (interior
subgrids, then rows, then columns, in that order) on the partial board
holding the nine 9s and the encoded symbol cells of `b` restores `b`. -/
theorem C7_reconstruction_restores_board (b : Board) (hv : validate b = true) :
    solveNaively (partialOf b) = b :=
  solveNaively_restores b hv

/-- Witness for C7 at the test board `working`. -/
theorem C7_reconstruction_restores_board_witness :
    solveNaively (partialOf workingBoard) = workingBoard :=
  C7_reconstruction_restores_board workingBoard (by decide)

/-- C8: on a 9-cell group with exactly one 0 and eight distinct digits of
1..9, `lastMissing` returns the unique digit of 1..9 absent from the group
(also when that digit is 9). -/
theorem C8_lastMissing_returns_unique_missing_digit (g : List Int)
    (hlen : g.length = 9) (h0 : List.count 0 g = 1)
    (hmem : ∀ v ∈ g, v ≠ 0 → 1 ≤ v ∧ v ≤ 9)
    (hnd : (g.filter (fun v => decide (v ≠ 0))).Nodup) :
    ∃ d : Int, 1 ≤ d ∧ d ≤ 9 ∧ d ∉ g ∧ (∀ e : Int, 1 ≤ e → e ≤ 9 → e ∉ g → e = d)
      ∧ lastMissing g = d :=
  lastMissing_unique g hlen h0 hmem hnd

/-- Witness for C8: the group missing the digit 1 (and, through `d = 9`
in the theorem, the case of a missing 9 is covered as well). -/
theorem C8_lastMissing_witness :
    ∃ d : Int, 1 ≤ d ∧ d ≤ 9 ∧ d ∉ ([0, 2, 3, 4, 5, 6, 7, 8, 9] : List Int)
      ∧ (∀ e : Int, 1 ≤ e → e ≤ 9 → e ∉ ([0, 2, 3, 4, 5, 6, 7, 8, 9] : List Int) → e = d)
      ∧ lastMissing [0, 2, 3, 4, 5, 6, 7, 8, 9] = d :=
  C8_lastMissing_returns_unique_missing_digit [0, 2, 3, 4, 5, 6, 7, 8, 9]
    (by decide) (by decide) (by decide) (by decide)

/-- C9: whenever `FromBytes` returns a board without an error, that board
passes `validate`; and whenever the fully reconstructed board fails
validation, `FromBytes` returns the corrupted-input error instead. -/
theorem C9_decoder_returns_only_validated_boards (bytes : List Nat) :
    (∀ b, FromBytes bytes = some (Except.ok b) → validate b = true)
      ∧ (∀ board, ¬bytes.length < 9 → ¬(toSymbols bytes).length < 8 →
          toBoard (imOfBytes bytes) = some (Except.ok board) →
          validate (solveNaively board) = false →
          FromBytes bytes = some (Except.error "bytes lead to incorrect board")) :=
  ⟨fun b h => FromBytes_validates bytes b h,
   fun board h1 h2 h3 h4 => FromBytes_corrupt bytes h1 h2 board h3 h4⟩

/-- Witness for C9: the decoder accepts the test vector `workingBytes` and
the resulting board (the test board `working`) passes the validator. -/
theorem C9_decoder_witness : validate workingBoard = true :=
  (C9_decoder_returns_only_validated_boards workingBytesList).1 workingBoard (by decide)

/-! ### Bit-level view of the byte buffer -/

/-- Bit `i` of a byte buffer, MSB-first (bit 0 is the high bit of byte 0). -/
def bitAt (buf : List Nat) (i : Nat) : Bool :=
  (buf.getD (i / 8) 0).testBit (7 - i % 8)

/-- The eight bits of a byte, MSB-first. -/
def byteBits (b : Nat) : List Bool :=
  [b.testBit 7, b.testBit 6, b.testBit 5, b.testBit 4,
   b.testBit 3, b.testBit 2, b.testBit 1, b.testBit 0]

/-- All bits of a buffer, MSB-first. -/
def bitsOf (buf : List Nat) : List Bool := buf.flatMap byteBits

/-- The three bits of a 3-bit symbol, MSB-first. -/
def bits3 (v : Nat) : List Bool := [v.testBit 2, v.testBit 1, v.testBit 0]

/-- The bit stream of a symbol sequence. -/
def symsBits (syms : List Nat) : List Bool := syms.flatMap bits3

/-- The four bits of the row nibble, MSB-first. -/
def fourBits (r : Nat) : List Bool :=
  [r.testBit 3, r.testBit 2, r.testBit 1, r.testBit 0]

/-- Adding a bit into a clear position of a byte: the sum stays below 256
and changes exactly that bit. -/
theorem byte_update_bits (x β j : Nat) (hx : x < 256) (hj : j < 8) (hβ : β ≤ 1)
    (hclear : x.testBit j = false) :
    x + β * 2 ^ j < 256
      ∧ ∀ i, i < 8 →
          (x + β * 2 ^ j).testBit i = (if i = j then decide (β = 1) else x.testBit i) := by
  rw [Nat.testBit_to_div_mod] at hclear
  simp only [decide_eq_false_iff_not] at hclear
  constructor
  · interval_cases j <;> omega
  · intro i hi
    rw [Nat.testBit_to_div_mod, Nat.testBit_to_div_mod]
    interval_cases j <;> interval_cases i <;> simp <;> omega

theorem getD_set_ne (l : List Nat) (n m x : Nat) (h : n ≠ m) :
    (l.set n x).getD m 0 = l.getD m 0 := by
  unfold List.getD
  rw [List.get?_eq_getElem?, List.get?_eq_getElem?, List.getElem?_set_ne h]

theorem getD_set_eq (l : List Nat) (n x : Nat) (h : n < l.length) :
    (l.set n x).getD n 0 = x := by
  unfold List.getD
  rw [List.get?_eq_getElem?, List.getElem?_set_self']
  rw [List.getElem?_eq_getElem h]
  rfl

theorem getD_mem_or (l : List Nat) (n : Nat) : l.getD n 0 ∈ l ∨ l.getD n 0 = 0 := by
  by_cases h : n < l.length
  · rw [List.getD_eq_getElem l 0 h]
    exact Or.inl (List.getElem_mem h)
  · right
    unfold List.getD
    rw [List.get?_eq_getElem?, List.getElem?_eq_none (by omega)]
    rfl

/-- One bit write: succeeds inside the buffer, keeps bytes below 256, and
changes exactly the addressed bit (which must be clear). -/
theorem writeBit_spec (buf : List Nat) (k β : Nat)
    (hk : k < 8 * buf.length) (hβ : β ≤ 1)
    (hbytes : ∀ x ∈ buf, x < 256) (hclear : bitAt buf k = false) :
    ∃ buf', writeBit buf k β = some buf'
      ∧ buf'.length = buf.length
      ∧ (∀ x ∈ buf', x < 256)
      ∧ ∀ i, bitAt buf' i = (if i = k then decide (β = 1) else bitAt buf i) := by
  have hdiv : k / 8 < buf.length := by omega
  have hx : buf.getD (k / 8) 0 < 256 := by
    rcases getD_mem_or buf (k / 8) with h | h
    · exact hbytes _ h
    · omega
  have hj : 7 - k % 8 < 8 := by omega
  have hclear' : (buf.getD (k / 8) 0).testBit (7 - k % 8) = false := hclear
  obtain ⟨hlt, hbits⟩ := byte_update_bits (buf.getD (k / 8) 0) β (7 - k % 8) hx hj hβ hclear'
  refine ⟨buf.set (k / 8) (buf.getD (k / 8) 0 + β * 2 ^ (7 - k % 8)), ?_, by simp, ?_, ?_⟩
  · unfold writeBit
    rw [dif_pos hdiv]
    congr 1
    rw [List.get_eq_getElem, ← List.getD_eq_getElem buf 0 hdiv]
    rw [Nat.shiftLeft_eq, Nat.mod_eq_of_lt hlt]
  · intro x hxm
    rcases List.mem_or_eq_of_mem_set hxm with h | h
    · exact hbytes x h
    · omega
  · intro i
    unfold bitAt
    by_cases hb : i / 8 = k / 8
    · rw [hb, getD_set_eq _ _ _ hdiv]
      by_cases hik : i = k
      · rw [if_pos hik, hik]
        exact (hbits (7 - k % 8) hj).trans (if_pos rfl)
      · have hne : 7 - i % 8 ≠ 7 - k % 8 := by omega
        rw [if_neg hik, hbits (7 - i % 8) (by omega), if_neg hne]
    · rw [if_neg (fun hik : i = k => hb (by rw [hik]))]
      rw [getD_set_ne _ _ _ _ (fun hh => hb hh.symm)]

end Sudokuconv
